import Mathlib

/- Shallow embedding of the game core, the LED pulse-stream encoder, the
   MAX7219 frame encoder and the game-loop input debouncing of
   src/main.rs.  Machine integers are modelled explicitly: `i8` values are
   `Int` with wrap-around arithmetic (`wrap8`), `u8` values are `Nat`
   reduced mod 256 where the code can wrap, `u32` values are `Nat` reduced
   mod 2^32, and `as usize` casts on the 32-bit target are `usizeOf`. -/

def BOARD_WIDTH : Nat := 8

def BOARD_HEIGHT : Nat := 32

def BRIGHTNESS : Nat := 6

def T0H : Nat := 40

def T0L : Nat := 85

def T1H : Nat := 80

def T1L : Nat := 45

def U32MOD : Nat := 4294967296

/- Wrapping semantics of signed 8-bit arithmetic. -/
def wrap8 (z : Int) : Int := (z + 128) % 256 - 128

/- Reinterpretation cast `u8 as i8`. -/
def toI8 (n : Nat) : Int := wrap8 (Int.ofNat (n % 256))

/- Cast `i8 as usize` on the 32-bit RISC-V target. -/
def usizeOf (z : Int) : Nat := (z % 4294967296).toNat

/- Wrapping `u8` subtraction. -/
def u8sub (a b : Nat) : Nat := (a % 256 + 256 - b % 256) % 256

inductive Color where
  | Red
  | Green
  | Blue
  | Yellow
  | Cyan
  | Magenta
  | White
deriving DecidableEq, Repr

structure Tetromino where
  shape : List (Nat × Nat)
  color : Color
deriving DecidableEq, Repr

def TETROMINOS : List Tetromino :=
  [{ shape := [(0, 1), (1, 1), (2, 1), (3, 1)], color := Color.Cyan },
   { shape := [(0, 0), (0, 1), (1, 0), (1, 1)], color := Color.Yellow },
   { shape := [(0, 1), (1, 1), (2, 1), (1, 0)], color := Color.Magenta },
   { shape := [(0, 0), (1, 0), (2, 0), (2, 1)], color := Color.Green },
   { shape := [(0, 1), (1, 1), (2, 1), (2, 0)], color := Color.Red },
   { shape := [(0, 0), (1, 0), (1, 1), (2, 1)], color := Color.Blue },
   { shape := [(0, 1), (1, 1), (1, 0), (2, 0)], color := Color.White }]

def defaultTetromino : Tetromino := { shape := [], color := Color.Red }

abbrev Row := List (Option Color)

abbrev Board := List Row

def emptyRow : Row := List.replicate BOARD_WIDTH none

structure Tetris where
  board : Board
  current_piece : Tetromino
  piece_pos : Int × Int
  score : Nat
  game_over : Bool
  ran : List Nat
deriving DecidableEq, Repr

/- Absolute x coordinate `pos.0 + dx as i8` of one shape offset. -/
def cellX (pos : Int × Int) (d : Nat × Nat) : Int := wrap8 (pos.1 + toI8 d.1)

/- Absolute y coordinate `pos.1 + dy as i8` of one shape offset. -/
def cellY (pos : Int × Int) (d : Nat × Nat) : Int := wrap8 (pos.2 + toI8 d.2)

def boardCell (b : Board) (y x : Nat) : Option Color := (b.getD y []).getD x none

/- Collision test of can_place; it reads nothing of the state but the
   board, so it is split out as a function of the board. -/
def can_place_on (b : Board) (piece : List (Nat × Nat)) (pos : Int × Int) : Bool :=
  piece.all fun d =>
    let x := cellX pos d
    let y := cellY pos d
    !(decide (x < 0) || decide ((BOARD_WIDTH : Int) ≤ x) || decide ((BOARD_HEIGHT : Int) ≤ y) ||
      (decide (0 ≤ y) && (boardCell b (usizeOf y) (usizeOf x)).isSome))

def Tetris.can_place (g : Tetris) (piece : List (Nat × Nat)) (pos : Int × Int) : Bool :=
  can_place_on g.board piece pos

/- Position after adding a move delta in wrapping i8 arithmetic. -/
def shiftedPos (g : Tetris) (delta : Int × Int) : Int × Int :=
  (wrap8 (g.piece_pos.1 + delta.1), wrap8 (g.piece_pos.2 + delta.2))

def Tetris.try_move (g : Tetris) (delta : Int × Int) : Tetris × Bool :=
  if g.game_over then (g, false)
  else
    let new_pos : Int × Int := shiftedPos g delta
    if g.can_place g.current_piece.shape new_pos then ({ g with piece_pos := new_pos }, true)
    else (g, false)

def Tetris.move_left (g : Tetris) : Tetris × Bool := g.try_move (-1, 0)

def Tetris.move_right (g : Tetris) : Tetris × Bool := g.try_move (1, 0)

def rowFull (r : Row) : Bool := r.all fun cell => cell.isSome

/- Body of the `for y in 0..BOARD_HEIGHT` scan of check_lines: when row y is
   full, the reversed copy loop `for yy in (1..=y).rev()` moves every row
   above y down one slot and row 0 becomes empty, which on lists is
   consing an empty row onto the board with index y removed. -/
def clearStep (g : Tetris) (y : Nat) : Tetris :=
  if rowFull (g.board.getD y []) then
    { g with
      board := emptyRow :: (g.board.take y ++ g.board.drop (y + 1)),
      score := (g.score + 100) % U32MOD }
  else g

def Tetris.check_lines (g : Tetris) : Tetris :=
  if g.game_over then g else (List.range BOARD_HEIGHT).foldl clearStep g

def writeCell (b : Board) (y x : Nat) (c : Color) : Board :=
  b.set y ((b.getD y []).set x (some c))

/- Board after lock_piece writes the 4 absolute cells of the active piece. -/
def placedBoard (g : Tetris) : Board :=
  g.current_piece.shape.foldl
    (fun b d =>
      writeCell b (usizeOf (cellY g.piece_pos d)) (usizeOf (cellX g.piece_pos d))
        g.current_piece.color)
    g.board

def Tetris.lock_piece (g : Tetris) : Tetris :=
  if g.game_over then g else Tetris.check_lines { g with board := placedBoard g }

def Tetris.spawn_new_piece (g : Tetris) : Tetris :=
  if g.game_over then g
  else
    let idx := ((g.ran.headD 0) % U32MOD) % 7
    let g1 : Tetris :=
      { g with
        current_piece := TETROMINOS.getD idx defaultTetromino,
        piece_pos := (3, 0),
        ran := g.ran.tail }
    if g1.can_place g1.current_piece.shape g1.piece_pos then g1
    else { g1 with game_over := true }

def Tetris.move_down (g : Tetris) : Tetris × Bool :=
  if g.game_over then (g, false)
  else
    let m := g.try_move (0, 1)
    if m.2 then (m.1, false) else ((m.1.lock_piece).spawn_new_piece, true)

/- Rotation of one offset: (x, y) becomes (y, 3 - x) with wrapping u8
   subtraction. -/
def rotOff (p : Nat × Nat) : Nat × Nat := (p.2, u8sub 3 p.1)

def rotateShape (s : List (Nat × Nat)) : List (Nat × Nat) := s.map rotOff

def Tetris.rotate (g : Tetris) : Tetris × Bool :=
  if g.game_over then (g, false)
  else
    let rotated := rotateShape g.current_piece.shape
    if g.can_place rotated g.piece_pos then
      ({ g with current_piece := { g.current_piece with shape := rotated } }, true)
    else (g, false)

def Tetris.new (rng : List Nat) : Tetris :=
  let game : Tetris :=
    { board := List.replicate BOARD_HEIGHT emptyRow,
      current_piece := TETROMINOS.getD 0 defaultTetromino,
      piece_pos := (2, 0),
      score := 0,
      game_over := false,
      ran := rng }
  if game.can_place game.current_piece.shape game.piece_pos then game
  else { game with game_over := true }

inductive Level where
  | Low
  | High
deriving DecidableEq, Repr

structure PulseCode where
  level1 : Level
  length1 : Nat
  level2 : Level
  length2 : Nat
deriving DecidableEq, Repr

def pulseT1 : PulseCode :=
  { level1 := Level.High, length1 := T1H, level2 := Level.Low, length2 := T1L }

def pulseT0 : PulseCode :=
  { level1 := Level.High, length1 := T0H, level2 := Level.Low, length2 := T0L }

def pulseReset : PulseCode :=
  { level1 := Level.Low, length1 := 800, level2 := Level.Low, length2 := 0 }

def create_led_bits (r g b w : Nat) : List PulseCode :=
  (([g, r, b, w].map fun byte =>
      (List.range 8).reverse.map fun bit =>
        if byte.testBit bit then pulseT1 else pulseT0)).flatten
    ++ [pulseReset]

/- The 8-byte SPI frame of Max7219::write_reg: NOP pairs everywhere except
   the register and value byte at shift position 4 - addr. -/
def write_reg (addr reg data : Nat) : List Nat :=
  ((List.replicate 8 0).set (u8sub 4 addr * 2) reg).set (u8sub 4 addr * 2 + 1) data

/- Occupancy test of the render loop: a locked board cell, or a cell of the
   active piece overlay while the game is not over (the coordinate
   comparison uses the `as usize` casts of the source). -/
def occupiedAt (g : Tetris) (x y : Nat) : Bool :=
  (boardCell g.board y x).isSome ||
    (!g.game_over &&
      g.current_piece.shape.any fun d =>
        (usizeOf (cellX g.piece_pos d) == x) && (usizeOf (cellY g.piece_pos d) == y))

/- column_data computed by the render loop for 8-row band m: for each local
   row, every occupied column ORs bit 7 - local_y into its byte. -/
def columnData (g : Tetris) (m : Nat) : List Nat :=
  (List.range 8).foldl
    (fun data localY =>
      (List.range BOARD_WIDTH).foldl
        (fun data x =>
          if occupiedAt g x (8 * m + localY) then
            data.set x ((data.getD x 0) ||| (1 <<< (7 - localY)))
          else data)
        data)
    (List.replicate 8 0)

def DEBOUNCE_MS : Nat := 250

/- Input section of one game-loop iteration: three active-low lines polled
   in order right, left, middle, all gated by one shared last-accepted
   timestamp; instants are modelled as milliseconds on a monotonic Nat
   clock. -/
def pollInput (g : Tetris) (lastKey now : Nat) (rightLow leftLow middleLow : Bool) :
    Tetris × Nat :=
  let s1 : Tetris × Nat :=
    if rightLow && decide (DEBOUNCE_MS < now - lastKey) then ((g.move_right).1, now)
    else (g, lastKey)
  let s2 : Tetris × Nat :=
    if leftLow && decide (DEBOUNCE_MS < now - s1.2) then ((s1.1.move_left).1, now)
    else s1
  let s3 : Tetris × Nat :=
    if middleLow && decide (DEBOUNCE_MS < now - s2.2) then ((s2.1.rotate).1, now)
    else s2
  s3

/- Concrete states used by witnesses and counterexamples. -/

def gFresh : Tetris := Tetris.new []

def gOver : Tetris := { gFresh with game_over := true }

/-- C5: create_led_bits returns exactly 33 pulse codes; codes 0..31 encode
the bytes g, r, b, w in order, each MSB-first, a set bit giving the T1
pulse and a clear bit the T0 pulse; code 32 is the terminator
(Low, 800, Low, 0); and for (r, g, b, w) = (5, 0, 0, 0) every code is a T0
code except T1 codes at positions 13 and 15, the MSB-first bit positions 5
and 7 of the red byte. -/
theorem create_led_bits_spec (r g b w : Nat) :
    (create_led_bits r g b w).length = 33 ∧
    (∀ i : Nat, i < 4 → ∀ j : Nat, j < 8 →
      (create_led_bits r g b w).getD (8 * i + j) pulseReset =
        (if ([g, r, b, w].getD i 0).testBit (7 - j) then pulseT1 else pulseT0)) ∧
    (create_led_bits r g b w).getD 32 pulseReset = pulseReset ∧
    (∀ i : Nat, i < 32 →
      (create_led_bits 5 0 0 0).getD i pulseReset =
        (if i = 13 ∨ i = 15 then pulseT1 else pulseT0)) := by
  refine ⟨rfl, ?_, rfl, by decide⟩
  intro i hi j hj
  interval_cases i <;> interval_cases j <;> rfl

/-- C7: for every module address 1..4, write_reg builds one 8-byte frame
holding reg at offset 2 * (4 - addr), data right after it, and the no-op
byte 0 everywhere else, leaving the other modules unaffected. -/
theorem write_reg_spec (addr reg data : Nat) (h1 : 1 ≤ addr) (h4 : addr ≤ 4) :
    (write_reg addr reg data).length = 8 ∧
    (write_reg addr reg data).getD (2 * (4 - addr)) 0 = reg ∧
    (write_reg addr reg data).getD (2 * (4 - addr) + 1) 0 = data ∧
    (∀ i : Nat, i < 8 → i ≠ 2 * (4 - addr) → i ≠ 2 * (4 - addr) + 1 →
      (write_reg addr reg data).getD i 0 = 0) := by
  interval_cases addr <;>
    refine ⟨rfl, rfl, rfl, ?_⟩ <;>
    (intro i hi hne1 hne2; interval_cases i <;> first | rfl | omega)

theorem write_reg_spec_witness :
    (write_reg 1 9 7).getD (2 * (4 - 1)) 0 = 9 :=
  (write_reg_spec 1 9 7 (by decide) (by decide)).2.1

/-- C4 counterexample: the position Tetris::new gives the initial piece is
(2, 0) while spawn_new_piece places the next piece at (3, 0), so there is
no single fixed spawn coordinate shared by both. -/
theorem spawn_position_cex :
    (Tetris.new []).piece_pos = (2, 0) ∧
    ((Tetris.new []).spawn_new_piece).game_over = false ∧
    ((Tetris.new []).spawn_new_piece).piece_pos = (3, 0) ∧
    (Tetris.new []).piece_pos ≠ ((Tetris.new []).spawn_new_piece).piece_pos := by
  decide

/-- C4 amended: Tetris::new places the initial piece at the fixed position
(2, 0), and spawn_new_piece places every piece spawned after a lock at the
fixed position (3, 0); the two coordinates differ. -/
theorem spawn_positions (rng : List Nat) (g : Tetris) (h : g.game_over = false) :
    (Tetris.new rng).piece_pos = (2, 0) ∧
    (g.spawn_new_piece).piece_pos = (3, 0) ∧
    ((2 : Int), (0 : Int)) ≠ ((3 : Int), (0 : Int)) := by
  refine ⟨?_, ?_, by decide⟩
  · simp only [Tetris.new]
    split <;> rfl
  · unfold Tetris.spawn_new_piece
    rw [h]
    simp only [Bool.false_eq_true, if_false]
    split <;> rfl

theorem spawn_positions_witness :
    ((Tetris.new []).spawn_new_piece).piece_pos = (3, 0) :=
  (spawn_positions [] (Tetris.new []) (by decide)).2.1

/- Characterisation of try_move on a non-terminal state. -/
theorem try_move_spec (g : Tetris) (delta : Int × Int) (h : g.game_over = false) :
    (g.try_move delta).2 = g.can_place g.current_piece.shape (shiftedPos g delta) ∧
    (g.try_move delta).1 =
      (if g.can_place g.current_piece.shape (shiftedPos g delta)
       then { g with piece_pos := shiftedPos g delta } else g) := by
  simp only [Tetris.try_move, h, Bool.false_eq_true, if_false]
  split <;> simp_all

/-- C2 counterexample: on the freshly constructed game the downward gravity
step is possible (can_place holds at the shifted position) and move_down
commits it, yet move_down returns false, not success. -/
theorem move_down_return_cex :
    (Tetris.new []).game_over = false ∧
    (Tetris.new []).can_place (Tetris.new []).current_piece.shape
      (shiftedPos (Tetris.new []) (0, 1)) = true ∧
    ((Tetris.new []).move_down).1.piece_pos = (2, 1) ∧
    ((Tetris.new []).move_down).2 = false := by
  decide

/-- C2 amended: on every non-terminal state, move_left and move_right
commit the shifted position and return true iff can_place holds there and
otherwise leave the state unchanged; move_down commits the downward shift
but returns false when can_place holds at the shifted position, and
returns true when placement fails, in which case it locks the piece,
clears lines and spawns a new piece. -/
theorem moves_commit_iff_can_place (g : Tetris) (h : g.game_over = false) :
    ((g.move_left).2 = g.can_place g.current_piece.shape (shiftedPos g (-1, 0)) ∧
     (g.can_place g.current_piece.shape (shiftedPos g (-1, 0)) = true →
       (g.move_left).1 = { g with piece_pos := shiftedPos g (-1, 0) }) ∧
     (g.can_place g.current_piece.shape (shiftedPos g (-1, 0)) = false →
       (g.move_left).1 = g)) ∧
    ((g.move_right).2 = g.can_place g.current_piece.shape (shiftedPos g (1, 0)) ∧
     (g.can_place g.current_piece.shape (shiftedPos g (1, 0)) = true →
       (g.move_right).1 = { g with piece_pos := shiftedPos g (1, 0) }) ∧
     (g.can_place g.current_piece.shape (shiftedPos g (1, 0)) = false →
       (g.move_right).1 = g)) ∧
    ((g.move_down).2 = !(g.can_place g.current_piece.shape (shiftedPos g (0, 1))) ∧
     (g.can_place g.current_piece.shape (shiftedPos g (0, 1)) = true →
       (g.move_down).1 = { g with piece_pos := shiftedPos g (0, 1) }) ∧
     (g.can_place g.current_piece.shape (shiftedPos g (0, 1)) = false →
       (g.move_down).1 = (g.lock_piece).spawn_new_piece)) := by
  obtain ⟨hl2, hl1⟩ := try_move_spec g (-1, 0) h
  obtain ⟨hr2, hr1⟩ := try_move_spec g (1, 0) h
  obtain ⟨hd2, hd1⟩ := try_move_spec g (0, 1) h
  refine ⟨⟨hl2, ?_, ?_⟩, ⟨hr2, ?_, ?_⟩, ?_, ?_, ?_⟩
  · intro hc; rw [Tetris.move_left, hl1, hc]; rfl
  · intro hc; rw [Tetris.move_left, hl1, hc]; rfl
  · intro hc; rw [Tetris.move_right, hr1, hc]; rfl
  · intro hc; rw [Tetris.move_right, hr1, hc]; rfl
  · simp only [Tetris.move_down, h, Bool.false_eq_true, if_false]
    split <;> simp_all
  · intro hc
    simp only [Tetris.move_down, h, Bool.false_eq_true, if_false, hd2, hc, if_true]
    rw [hd1, hc]; simp [h]
  · intro hc
    simp only [Tetris.move_down, h, Bool.false_eq_true, if_false, hd2, hc,
      Bool.false_eq_true, if_false]
    rw [hd1, hc]; rfl

theorem moves_commit_iff_can_place_witness :
    ((Tetris.new []).move_right).2 =
      (Tetris.new []).can_place (Tetris.new []).current_piece.shape
        (shiftedPos (Tetris.new []) (1, 0)) :=
  (moves_commit_iff_can_place (Tetris.new []) (by decide)).2.1.1

/-- C8: one game-loop iteration applies at most one input action; with the
shared last-accepted timestamp open (elapsed strictly above the debounce
window) the first pressed line in the order right, left, middle is the
only one applied and the shared timestamp becomes now, which closes the
gate for the remaining lines of this iteration and for the next window;
with the gate closed nothing is applied and nothing changes. -/
theorem pollInput_atomic (g : Tetris) (lastKey now : Nat) (r l m : Bool) :
    pollInput g lastKey now r l m =
      (if DEBOUNCE_MS < now - lastKey then
        (if r then ((g.move_right).1, now)
         else if l then ((g.move_left).1, now)
         else if m then ((g.rotate).1, now)
         else (g, lastKey))
      else (g, lastKey)) := by
  cases r <;> cases l <;> cases m <;>
    simp [pollInput, DEBOUNCE_MS] <;>
    split_ifs <;> simp_all

/- Bounded offsets stay bounded under the rotation map. -/
theorem rotOff_bounds {p : Nat × Nat} (h1 : p.1 ≤ 3) (h2 : p.2 ≤ 3) :
    (rotOff p).1 ≤ 3 ∧ (rotOff p).2 ≤ 3 := by
  obtain ⟨a, b⟩ := p
  simp only [rotOff, u8sub] at *
  omega

/- The rotation map has order four on bounded offsets. -/
theorem rotOff_four {p : Nat × Nat} (h1 : p.1 ≤ 3) (h2 : p.2 ≤ 3) :
    rotOff (rotOff (rotOff (rotOff p))) = p := by
  obtain ⟨a, b⟩ := p
  simp only [rotOff, u8sub, Prod.mk.injEq] at *
  omega

theorem rotateShape_bounds {s : List (Nat × Nat)} (h : ∀ p ∈ s, p.1 ≤ 3 ∧ p.2 ≤ 3) :
    ∀ q ∈ rotateShape s, q.1 ≤ 3 ∧ q.2 ≤ 3 := by
  intro q hq
  simp only [rotateShape, List.mem_map] at hq
  obtain ⟨p, hp, rfl⟩ := hq
  exact rotOff_bounds (h p hp).1 (h p hp).2

theorem rotateShape_four {s : List (Nat × Nat)} (h : ∀ p ∈ s, p.1 ≤ 3 ∧ p.2 ≤ 3) :
    rotateShape (rotateShape (rotateShape (rotateShape s))) = s := by
  induction s with
  | nil => rfl
  | cons p t ih =>
      have hp := h p (List.mem_cons_self p t)
      have ht : ∀ q ∈ t, q.1 ≤ 3 ∧ q.2 ≤ 3 := fun q hq => h q (List.mem_cons_of_mem _ hq)
      simp only [rotateShape, List.map_cons] at ih ⊢
      rw [rotOff_four hp.1 hp.2, ih ht]

/- An accepted rotation replaces the shape by its rotation and changes
   nothing else. -/
theorem rotate_accepted {g : Tetris} (h : (g.rotate).2 = true) :
    (g.rotate).1 =
      { g with current_piece :=
          { g.current_piece with shape := rotateShape g.current_piece.shape } } := by
  simp only [Tetris.rotate] at h ⊢
  split at h
  · simp at h
  · split at h
    · simp_all
    · simp at h

/-- C9: every offset of the 7 tetromino prototypes lies in [0,3] x [0,3];
the rotation transform preserves that box and applied four times to any
shape inside it returns the original offsets; consequently four
consecutive accepted rotate() calls restore current_piece.shape to its
value before the first call. -/
theorem rotate_order_four :
    (∀ t ∈ TETROMINOS, ∀ p ∈ t.shape, p.1 ≤ 3 ∧ p.2 ≤ 3) ∧
    (∀ s : List (Nat × Nat), (∀ p ∈ s, p.1 ≤ 3 ∧ p.2 ≤ 3) →
      (∀ q ∈ rotateShape s, q.1 ≤ 3 ∧ q.2 ≤ 3) ∧
      rotateShape (rotateShape (rotateShape (rotateShape s))) = s) ∧
    (∀ g : Tetris, (∀ p ∈ g.current_piece.shape, p.1 ≤ 3 ∧ p.2 ≤ 3) →
      (g.rotate).2 = true →
      ((g.rotate).1.rotate).2 = true →
      (((g.rotate).1.rotate).1.rotate).2 = true →
      ((((g.rotate).1.rotate).1.rotate).1.rotate).2 = true →
      ((((g.rotate).1.rotate).1.rotate).1.rotate).1.current_piece.shape =
        g.current_piece.shape) := by
  refine ⟨by decide, fun s hs => ⟨rotateShape_bounds hs, rotateShape_four hs⟩, ?_⟩
  intro g hs h1 h2 h3 h4
  rw [rotate_accepted h4, rotate_accepted h3, rotate_accepted h2, rotate_accepted h1]
  exact rotateShape_four hs

theorem rotate_order_four_witness :
    ((((gFresh.rotate).1.rotate).1.rotate).1.rotate).1.current_piece.shape =
      gFresh.current_piece.shape :=
  rotate_order_four.2.2 gFresh (by decide) (by decide) (by decide) (by decide) (by decide)

/- clearStep only touches board and score. -/
theorem clearStep_fields (g : Tetris) (y : Nat) :
    (clearStep g y).current_piece = g.current_piece ∧
    (clearStep g y).piece_pos = g.piece_pos ∧
    (clearStep g y).game_over = g.game_over ∧
    (clearStep g y).ran = g.ran := by
  unfold clearStep; split <;> exact ⟨rfl, rfl, rfl, rfl⟩

theorem foldl_clearStep_fields (L : List Nat) (g : Tetris) :
    (L.foldl clearStep g).current_piece = g.current_piece ∧
    (L.foldl clearStep g).piece_pos = g.piece_pos ∧
    (L.foldl clearStep g).game_over = g.game_over ∧
    (L.foldl clearStep g).ran = g.ran := by
  induction L generalizing g with
  | nil => exact ⟨rfl, rfl, rfl, rfl⟩
  | cons y L ih =>
      obtain ⟨a, b, c, d⟩ := ih (clearStep g y)
      obtain ⟨a2, b2, c2, d2⟩ := clearStep_fields g y
      exact ⟨by rw [List.foldl_cons, a, a2], by rw [List.foldl_cons, b, b2],
             by rw [List.foldl_cons, c, c2], by rw [List.foldl_cons, d, d2]⟩

theorem check_lines_fields (g : Tetris) :
    (g.check_lines).current_piece = g.current_piece ∧
    (g.check_lines).piece_pos = g.piece_pos ∧
    (g.check_lines).game_over = g.game_over ∧
    (g.check_lines).ran = g.ran := by
  unfold Tetris.check_lines; split
  · exact ⟨rfl, rfl, rfl, rfl⟩
  · exact foldl_clearStep_fields _ g

theorem lock_piece_fields (g : Tetris) :
    (g.lock_piece).current_piece = g.current_piece ∧
    (g.lock_piece).piece_pos = g.piece_pos ∧
    (g.lock_piece).game_over = g.game_over ∧
    (g.lock_piece).ran = g.ran := by
  unfold Tetris.lock_piece; split
  · exact ⟨rfl, rfl, rfl, rfl⟩
  · exact check_lines_fields _

theorem try_move_go (g : Tetris) (delta : Int × Int) :
    (g.try_move delta).1.game_over = g.game_over := by
  simp only [Tetris.try_move]
  split
  · rfl
  · split <;> rfl

theorem rotate_go (g : Tetris) :
    (g.rotate).1.game_over = g.game_over := by
  simp only [Tetris.rotate]
  split
  · rfl
  · split <;> rfl

/- game_over value after a spawn from a live state. -/
theorem spawn_go (g : Tetris) (h : g.game_over = false) :
    (g.spawn_new_piece).game_over =
      !(g.can_place
          (TETROMINOS.getD (((g.ran.headD 0) % U32MOD) % 7) defaultTetromino).shape
          (3, 0)) := by
  simp only [Tetris.spawn_new_piece, h, Bool.false_eq_true, if_false, Tetris.can_place]
  split
  · simp_all [Tetris.can_place, h]
  · simp_all [Tetris.can_place, h]

/-- C3: game_over becomes true exactly when a freshly spawned piece fails
its placement check (the initial construction check never fails because
the board starts empty), it is never reset, and once it is true every call
to move_left, move_right, move_down or rotate returns false and leaves the
whole state unchanged; move_left, move_right and rotate never change
game_over at all. -/
theorem game_over_absorbing (g : Tetris) (rng : List Nat) :
    (g.game_over = true →
      g.move_left = (g, false) ∧ g.move_right = (g, false) ∧
      g.move_down = (g, false) ∧ g.rotate = (g, false)) ∧
    ((g.move_left).1.game_over = g.game_over ∧
     (g.move_right).1.game_over = g.game_over ∧
     (g.rotate).1.game_over = g.game_over) ∧
    (g.game_over = false →
      ((g.move_down).1.game_over = true ↔
        ((g.try_move (0, 1)).2 = false ∧
         (g.lock_piece).can_place
           (TETROMINOS.getD (((g.ran.headD 0) % U32MOD) % 7) defaultTetromino).shape
           (3, 0) = false))) ∧
    (Tetris.new rng).game_over = false := by
  refine ⟨?_, ?_, ?_, ?_⟩
  · intro h
    refine ⟨?_, ?_, ?_, ?_⟩
    · simp [Tetris.move_left, Tetris.try_move, h]
    · simp [Tetris.move_right, Tetris.try_move, h]
    · simp [Tetris.move_down, h]
    · simp [Tetris.rotate, h]
  · exact ⟨try_move_go g (-1, 0), try_move_go g (1, 0), rotate_go g⟩
  · intro hgo
    cases hm : (g.try_move (0, 1)).2 with
    | true => simp [Tetris.move_down, hgo, hm, try_move_go]
    | false =>
        have hmv := (try_move_spec g (0, 1) hgo).1
        have h1 : (g.try_move (0, 1)).1 = g := by
          rw [(try_move_spec g (0, 1) hgo).2, ← hmv, hm]
          simp
        simp only [Tetris.move_down, hgo, Bool.false_eq_true, if_false, hm]
        rw [h1]
        have hlgo : (g.lock_piece).game_over = false := by
          rw [(lock_piece_fields g).2.2.1, hgo]
        rw [spawn_go _ hlgo, (lock_piece_fields g).2.2.2]
        simp [hm]
  · simp only [Tetris.new]
    split
    · rfl
    · rename_i hc
      exact absurd
        (by decide :
          can_place_on (List.replicate BOARD_HEIGHT emptyRow)
            (TETROMINOS.getD 0 defaultTetromino).shape (2, 0) = true)
        hc

theorem game_over_absorbing_witness : gOver.move_left = (gOver, false) :=
  ((game_over_absorbing gOver []).1 (by decide)).1

theorem getD_set_self (l : List Nat) (i v : Nat) (h : i < l.length) :
    (l.set i v).getD i 0 = v := by
  have h2 : i < (l.set i v).length := by simpa using h
  rw [List.getD_eq_getElem _ _ h2]
  exact List.getElem_set_self h2

theorem getD_set_ne (l : List Nat) (i j v : Nat) (h : i ≠ j) :
    (l.set i v).getD j 0 = l.getD j 0 := by
  rcases Nat.lt_or_ge j l.length with hj | hj
  · have h2 : j < (l.set i v).length := by simpa using hj
    rw [List.getD_eq_getElem _ _ h2, List.getD_eq_getElem _ _ hj]
    exact List.getElem_set_ne h h2
  · rw [List.getD_eq_default _ _ (by simpa using hj), List.getD_eq_default _ _ hj]

/- Effect of the inner render loop over the columns: entry x is ORed with
   the bit value exactly when its column is occupied in the processed
   range. -/
theorem innerFold_spec (occ : Nat → Bool) (v : Nat) :
    ∀ (n a : Nat) (data : List Nat), data.length = 8 → a + n ≤ 8 →
      (((List.range' a n).foldl
          (fun d x => if occ x then d.set x ((d.getD x 0) ||| v) else d) data).length = 8 ∧
       ∀ x : Nat, x < 8 →
         ((List.range' a n).foldl
            (fun d x => if occ x then d.set x ((d.getD x 0) ||| v) else d) data).getD x 0 =
           (if a ≤ x ∧ x < a + n ∧ occ x = true then (data.getD x 0) ||| v
            else data.getD x 0)) := by
  intro n
  induction n with
  | zero =>
      intro a data hlen _
      refine ⟨by simpa using hlen, ?_⟩
      intro x hx
      rw [List.range'_zero, List.foldl_nil, if_neg]
      rintro ⟨h1, h2, h3⟩
      omega
  | succ n ih =>
      intro a data hlen hle
      rw [List.range'_succ]
      simp only [List.foldl_cons]
      have hlen' : (if occ a then data.set a ((data.getD a 0) ||| v) else data).length = 8 := by
        split <;> simpa using hlen
      obtain ⟨hL, hG⟩ := ih (a + 1)
        (if occ a then data.set a ((data.getD a 0) ||| v) else data) hlen' (by omega)
      refine ⟨hL, ?_⟩
      intro x hx
      rw [hG x hx]
      by_cases hxa : x = a
      · subst hxa
        rw [if_neg (by rintro ⟨h1, h2, h3⟩; omega)]
        by_cases ho : occ x = true
        · rw [if_pos ho, if_pos ⟨Nat.le_refl x, by omega, ho⟩]
          exact getD_set_self data x _ (by omega)
        · rw [if_neg (by simp [ho]), if_neg (by rintro ⟨h1, h2, h3⟩; exact ho h3)]
      · have hdx : (if occ a then data.set a ((data.getD a 0) ||| v) else data).getD x 0 =
            data.getD x 0 := by
          split
          · exact getD_set_ne data a x _ (fun he => hxa he.symm)
          · rfl
        rw [hdx]
        by_cases hcond : a + 1 ≤ x ∧ x < a + 1 + n ∧ occ x = true
        · rw [if_pos hcond, if_pos ⟨by omega, by omega, hcond.2.2⟩]
        · rw [if_neg hcond, if_neg]
          rintro ⟨h1, h2, h3⟩
          exact hcond ⟨by omega, by omega, h3⟩

/- Effect of the outer render loop over the local rows of one band: after
   processing local rows c..7, bit j of entry x records occupancy of local
   row 7 - j. -/
theorem outerFold_spec (occ : Nat → Nat → Bool) :
    ∀ (k c : Nat) (data : List Nat), c + k = 8 → data.length = 8 →
      (∀ x : Nat, x < 8 → ∀ j : Nat,
        (data.getD x 0).testBit j = (decide (8 - c ≤ j ∧ j < 8) && occ x (7 - j))) →
      ∀ x : Nat, x < 8 → ∀ j : Nat,
        (((List.range' c k).foldl
            (fun d ly => (List.range' 0 8).foldl
              (fun d2 x2 => if occ x2 ly then d2.set x2 ((d2.getD x2 0) ||| (1 <<< (7 - ly)))
                else d2) d)
            data).getD x 0).testBit j =
          (decide (j < 8) && occ x (7 - j)) := by
  intro k
  induction k with
  | zero =>
      intro c data hck hlen hinv x hx j
      rw [List.range'_zero, List.foldl_nil, hinv x hx j,
        decide_eq_decide.mpr (by omega : (8 - c ≤ j ∧ j < 8) ↔ (j < 8))]
  | succ k ih =>
      intro c data hck hlen hinv x hx j
      rw [List.range'_succ]
      simp only [List.foldl_cons]
      obtain ⟨hL1, hG1⟩ :=
        innerFold_spec (fun x2 => occ x2 c) (1 <<< (7 - c)) 8 0 data hlen (by omega)
      refine ih (c + 1) _ (by omega) hL1 ?_ x hx j
      intro x2 hx2 j2
      by_cases ho : occ x2 c = true
      · rw [hG1 x2 hx2, if_pos ⟨Nat.zero_le _, by omega, ho⟩, Nat.testBit_or,
          Nat.one_shiftLeft, Nat.testBit_two_pow, hinv x2 hx2 j2]
        by_cases hj : j2 = 7 - c
        · subst hj
          rw [show 7 - (7 - c) = c from by omega]
          have hA : ¬(8 - c ≤ 7 - c ∧ 7 - c < 8) := by omega
          have hC : 8 - (c + 1) ≤ 7 - c ∧ 7 - c < 8 := by omega
          simp [hA, hC, ho]
        · have hd : decide (7 - c = j2) = false := by
            simp only [decide_eq_false_iff_not]
            omega
          rw [hd, Bool.or_false,
            decide_eq_decide.mpr
              (by omega : (8 - c ≤ j2 ∧ j2 < 8) ↔ (8 - (c + 1) ≤ j2 ∧ j2 < 8))]
      · have ho2 : occ x2 c = false := by simpa using ho
        rw [hG1 x2 hx2, if_neg (by rintro ⟨u1, u2, u3⟩; exact ho u3), hinv x2 hx2 j2]
        by_cases hj : j2 = 7 - c
        · subst hj
          rw [show 7 - (7 - c) = c from by omega]
          have hA : ¬(8 - c ≤ 7 - c ∧ 7 - c < 8) := by omega
          simp [hA, ho2]
        · rw [decide_eq_decide.mpr
            (by omega : (8 - c ≤ j2 ∧ j2 < 8) ↔ (8 - (c + 1) ≤ j2 ∧ j2 < 8))]

/- Board holding one locked cell at (0, 0) on a finished game, the state of
   the single-cell rendering test. -/
def gCell : Tetris :=
  { board := ((some Color.Red) :: List.replicate 7 none) :: List.replicate 31 emptyRow,
    current_piece := defaultTetromino,
    piece_pos := (0, 0),
    score := 0,
    game_over := true,
    ran := [] }

/-- C6: for every frame state, every band m of 8 board rows, every column
x and every local row, bit 7 - local row of column_data[x] is set iff the
cell at board column x and board row 8 m + local row is occupied by a
locked board cell or, when the game is not over, by a cell of the active
piece overlay; with a single occupied cell at board (0, 0), bit 7 of
column_data[0] is set for the first band and the bytes of the other three
bands are all zero. -/
theorem columnData_spec (g : Tetris) (m x ly : Nat) (_hm : m < 4) (hx : x < 8) (hly : ly < 8) :
    (((columnData g m).getD x 0).testBit (7 - ly) = occupiedAt g x (8 * m + ly)) ∧
    (columnData gCell 0 = [128, 0, 0, 0, 0, 0, 0, 0] ∧
     columnData gCell 1 = List.replicate 8 0 ∧
     columnData gCell 2 = List.replicate 8 0 ∧
     columnData gCell 3 = List.replicate 8 0) := by
  refine ⟨?_, by decide⟩
  have hinv0 : ∀ x2 : Nat, x2 < 8 → ∀ j : Nat,
      ((List.replicate 8 (0 : Nat)).getD x2 0).testBit j =
        (decide (8 - 0 ≤ j ∧ j < 8) && occupiedAt g x2 (8 * m + (7 - j))) := by
    intro x2 hx2 j
    have hz : (List.replicate 8 (0 : Nat)).getD x2 0 = 0 := by
      interval_cases x2 <;> rfl
    have hA : ¬(8 - 0 ≤ j ∧ j < 8) := by omega
    rw [hz, Nat.zero_testBit, decide_eq_false hA, Bool.false_and]
  have hmain :=
    outerFold_spec (fun x2 ly2 => occupiedAt g x2 (8 * m + ly2)) 8 0
      (List.replicate 8 0) rfl (by simp) hinv0 x hx (7 - ly)
  simp only [columnData, BOARD_WIDTH, List.range_eq_range']
  rw [hmain, show 7 - (7 - ly) = ly from by omega,
    decide_eq_true (by omega : 7 - ly < 8), Bool.true_and]

theorem columnData_spec_witness :
    ((columnData gCell 0).getD 0 0).testBit 7 = occupiedAt gCell 0 0 :=
  (columnData_spec gCell 0 0 0 (by decide) (by decide) (by decide)).1

theorem rowFull_emptyRow : rowFull emptyRow = false := by decide

/- The check_lines scan from index y onward, on a board whose first y rows
   are not full: every full row is removed, one empty row per cleared row
   is pushed onto the top, the surviving rows keep their relative order,
   and the score grows by 100 per cleared row (mod 2^32). -/
theorem clearFold_spec :
    ∀ (n y : Nat) (g : Tetris), g.board.length = y + n →
      (∀ r ∈ g.board.take y, rowFull r = false) →
      g.score < U32MOD →
      ((List.range' y n).foldl clearStep g).board =
          List.replicate ((g.board.drop y).countP rowFull) emptyRow ++
            g.board.filter (fun r => !rowFull r) ∧
      ((List.range' y n).foldl clearStep g).score =
          (g.score + 100 * ((g.board.drop y).countP rowFull)) % U32MOD := by
  intro n
  induction n with
  | zero =>
      intro y g hlen hpre hs
      have hdrop : g.board.drop y = [] := List.drop_eq_nil_of_le (by omega)
      have htake : g.board.take y = g.board := List.take_of_length_le (by omega)
      have hfilter : g.board.filter (fun r => !rowFull r) = g.board := by
        rw [List.filter_eq_self]
        intro r hr
        have hrf := hpre r (by rw [htake]; exact hr)
        simp [hrf]
      rw [List.range'_zero, List.foldl_nil, hdrop, hfilter]
      simp only [List.countP_nil, List.replicate_zero, List.nil_append, Nat.mul_zero,
        Nat.add_zero]
      exact ⟨trivial, (Nat.mod_eq_of_lt hs).symm⟩
  | succ n ih =>
      intro y g hlen hpre hs
      rw [List.range'_succ]
      simp only [List.foldl_cons]
      have hy : y < g.board.length := by omega
      have hgetD : g.board.getD y [] = g.board[y] := List.getD_eq_getElem _ _ hy
      have hdropc : g.board.drop y = g.board[y] :: g.board.drop (y + 1) :=
        List.drop_eq_getElem_cons hy
      have hTlen : (g.board.take y).length = y := by
        rw [List.length_take]
        omega
      by_cases hf : rowFull g.board[y] = true
      · have hstep : clearStep g y =
            { g with
              board := emptyRow :: (g.board.take y ++ g.board.drop (y + 1)),
              score := (g.score + 100) % U32MOD } := by
          unfold clearStep
          rw [hgetD, if_pos hf]
        rw [hstep]
        have hlen' :
            (emptyRow :: (g.board.take y ++ g.board.drop (y + 1))).length = (y + 1) + n := by
          simp only [List.length_cons, List.length_append, List.length_drop, hTlen]
          omega
        have hpre' : ∀ r ∈ (emptyRow :: (g.board.take y ++ g.board.drop (y + 1))).take (y + 1),
            rowFull r = false := by
          intro r hr
          rw [List.take_succ_cons, List.take_left' hTlen] at hr
          rcases List.mem_cons.mp hr with h | h
          · rw [h]; exact rowFull_emptyRow
          · exact hpre r h
        have hs' : (g.score + 100) % U32MOD < U32MOD := Nat.mod_lt _ (by norm_num [U32MOD])
        obtain ⟨hbd, hsc⟩ := ih (y + 1)
          { g with
            board := emptyRow :: (g.board.take y ++ g.board.drop (y + 1)),
            score := (g.score + 100) % U32MOD } hlen' hpre' hs'
        have hdrop' :
            (emptyRow :: (g.board.take y ++ g.board.drop (y + 1))).drop (y + 1) =
              g.board.drop (y + 1) := by
          rw [List.drop_succ_cons, List.drop_left' hTlen]
        have hcount : (g.board.drop y).countP rowFull =
            (g.board.drop (y + 1)).countP rowFull + 1 := by
          rw [hdropc, List.countP_cons, if_pos hf]
        have hfil : (emptyRow :: (g.board.take y ++ g.board.drop (y + 1))).filter
              (fun r => !rowFull r) =
            emptyRow :: (g.board.filter (fun r => !rowFull r)) := by
          rw [List.filter_cons_of_pos (by simp [rowFull_emptyRow]), List.filter_append]
          have hsplit : g.board = g.board.take y ++ g.board[y] :: g.board.drop (y + 1) := by
            conv_lhs => rw [← List.take_append_drop y g.board]
            rw [hdropc]
          conv_rhs => rw [hsplit]
          rw [List.filter_append, List.filter_cons_of_neg (by simp [hf])]
      -- assemble the two parts
        constructor
        · rw [hbd]
          simp only at hbd ⊢
          rw [hdrop', hfil, hcount, List.append_cons, ← List.replicate_succ']
        · rw [hsc]
          simp only at hsc ⊢
          rw [hdrop', hcount]
          simp only [U32MOD]
          omega
      · have hf0 : rowFull g.board[y] = false := by simpa using hf
        have hstep : clearStep g y = g := by
          unfold clearStep
          rw [hgetD, hf0]
          simp
        rw [hstep]
        have hpre' : ∀ r ∈ g.board.take (y + 1), rowFull r = false := by
          intro r hr
          rw [List.take_succ, List.getElem?_eq_getElem hy] at hr
          rcases List.mem_append.mp hr with h | h
          · exact hpre r h
          · simp only [Option.toList_some, List.mem_singleton] at h
            rw [h]; exact hf0
        obtain ⟨hbd, hsc⟩ := ih (y + 1) g (by omega) hpre' hs
        have hcount : (g.board.drop y).countP rowFull =
            (g.board.drop (y + 1)).countP rowFull := by
          rw [hdropc, List.countP_cons, if_neg (by simp [hf0])]
          omega
        exact ⟨by rw [hbd, hcount], by rw [hsc, hcount]⟩

theorem placedBoard_length (g : Tetris) : (placedBoard g).length = g.board.length := by
  unfold placedBoard
  generalize g.board = b
  induction g.current_piece.shape generalizing b with
  | nil => rfl
  | cons d t ih =>
      rw [List.foldl_cons, ih]
      simp [writeCell]

/-- C1: locking first writes the 4 cells of the active piece into the board
(the board placedBoard), then the single check_lines pass clears every row
of placedBoard that is entirely occupied, adjacent or not: the final board
is placedBoard with its k full rows removed and k empty rows inserted at
the top, the surviving rows keeping their relative order, and the score
grows by exactly 100 for each of the k cleared rows. -/
theorem lock_clears_full_rows (g : Tetris) (hgo : g.game_over = false)
    (hlen : g.board.length = 32)
    (hbound : g.score + 100 * ((placedBoard g).countP rowFull) < U32MOD) :
    g.lock_piece = Tetris.check_lines { g with board := placedBoard g } ∧
    (g.lock_piece).board =
      List.replicate ((placedBoard g).countP rowFull) emptyRow ++
        (placedBoard g).filter (fun r => !rowFull r) ∧
    (g.lock_piece).score = g.score + 100 * ((placedBoard g).countP rowFull) := by
  have hs : g.score < U32MOD := by omega
  have hlock : g.lock_piece = Tetris.check_lines { g with board := placedBoard g } := by
    unfold Tetris.lock_piece
    rw [hgo]
    simp
  have hchk : Tetris.check_lines { g with board := placedBoard g } =
      (List.range' 0 32).foldl clearStep { g with board := placedBoard g } := by
    unfold Tetris.check_lines
    rw [show ({ g with board := placedBoard g } : Tetris).game_over = false from hgo]
    simp only [Bool.false_eq_true, if_false, BOARD_HEIGHT, List.range_eq_range']
  obtain ⟨hbd, hsc⟩ := clearFold_spec 32 0 { g with board := placedBoard g }
    (by simpa [placedBoard_length] using hlen)
    (by intro r hr; simp at hr)
    hs
  refine ⟨hlock, ?_, ?_⟩
  · rw [hlock, hchk, hbd]
    simp
  · rw [hlock, hchk, hsc]
    simp only [List.drop_zero]
    exact Nat.mod_eq_of_lt hbound

/- State with the bottom row already full, used to exercise the lock and
   clear path on a concrete input. -/
def gWitness : Tetris :=
  { board := List.replicate 31 emptyRow ++ [List.replicate 8 (some Color.Red)],
    current_piece := TETROMINOS.getD 1 defaultTetromino,
    piece_pos := (2, 0),
    score := 0,
    game_over := false,
    ran := [] }

theorem lock_clears_full_rows_witness :
    (gWitness.lock_piece).score =
      gWitness.score + 100 * ((placedBoard gWitness).countP rowFull) :=
  (lock_clears_full_rows gWitness rfl (by decide) (by decide)).2.2

theorem wrap8_id {z : Int} (h1 : -128 ≤ z) (h2 : z ≤ 127) : wrap8 z = z := by
  unfold wrap8
  omega

theorem toI8_small {n : Nat} (h : n ≤ 127) : toI8 n = n := by
  unfold toI8 wrap8
  simp only [Int.ofNat_eq_coe]
  omega

/- Propositional reading of the placement test. -/
theorem can_place_on_iff (b : Board) (piece : List (Nat × Nat)) (pos : Int × Int) :
    can_place_on b piece pos = true ↔
      ∀ d ∈ piece, 0 ≤ cellX pos d ∧ cellX pos d < 8 ∧ cellY pos d < 32 ∧
        (0 ≤ cellY pos d →
          (boardCell b (usizeOf (cellY pos d)) (usizeOf (cellX pos d))).isSome = false) := by
  unfold can_place_on
  rw [List.all_eq_true]
  constructor
  · intro h d hd
    have h2 := h d hd
    simp only [Bool.not_eq_true', Bool.or_eq_false_iff, Bool.and_eq_false_imp,
      decide_eq_false_iff_not, decide_eq_true_eq, BOARD_WIDTH, BOARD_HEIGHT,
      Nat.cast_ofNat] at h2
    obtain ⟨⟨⟨h1, h2'⟩, h3⟩, h4⟩ := h2
    exact ⟨by omega, by omega, by omega, h4⟩
  · intro h d hd
    have h2 := h d hd
    simp only [Bool.not_eq_true', Bool.or_eq_false_iff, Bool.and_eq_false_imp,
      decide_eq_false_iff_not, decide_eq_true_eq, BOARD_WIDTH, BOARD_HEIGHT,
      Nat.cast_ofNat]
    obtain ⟨g1, g2, g3, g4⟩ := h2
    exact ⟨⟨⟨by omega, by omega⟩, by omega⟩, g4⟩

/- Shape well-formedness: 4 offsets, all inside the 4 x 4 box. -/
def ShapeInv (s : List (Nat × Nat)) : Prop :=
  s.length = 4 ∧ ∀ p ∈ s, p.1 ≤ 3 ∧ p.2 ≤ 3

/- The inductive state invariant: the shape is well formed and, while the
   game is live, the piece position is in a small window, its y component
   is non-negative, and the piece placement test holds at the current
   position. -/
def StateInv (g : Tetris) : Prop :=
  ShapeInv g.current_piece.shape ∧
  (g.game_over = false →
    -3 ≤ g.piece_pos.1 ∧ g.piece_pos.1 ≤ 7 ∧ 0 ≤ g.piece_pos.2 ∧ g.piece_pos.2 ≤ 31 ∧
    g.can_place g.current_piece.shape g.piece_pos = true)

theorem tetromino_shapeInv :
    ∀ i : Nat, i < 7 → ShapeInv (TETROMINOS.getD i defaultTetromino).shape := by
  intro i hi
  interval_cases i <;> exact ⟨by decide, by decide⟩

/- Bounds on the position recovered from a successful placement test when
   the position is already near the board. -/
theorem pos_bounds_of_can_place (b : Board) (s : List (Nat × Nat)) (pos : Int × Int)
    (hs : ∀ p ∈ s, p.1 ≤ 3 ∧ p.2 ≤ 3) (hne : s ≠ [])
    (hx1 : -4 ≤ pos.1) (hx2 : pos.1 ≤ 8) (hy1 : -1 ≤ pos.2) (hy2 : pos.2 ≤ 32)
    (hcp : can_place_on b s pos = true) :
    -3 ≤ pos.1 ∧ pos.1 ≤ 7 ∧ pos.2 ≤ 31 := by
  obtain ⟨d, hd⟩ := List.exists_mem_of_ne_nil s hne
  have h := (can_place_on_iff b s pos).mp hcp d hd
  obtain ⟨hdx, hdy⟩ := hs d hd
  have ex : cellX pos d = pos.1 + (d.1 : Int) := by
    unfold cellX
    rw [toI8_small (by omega)]
    exact wrap8_id (by omega) (by omega)
  have ey : cellY pos d = pos.2 + (d.2 : Int) := by
    unfold cellY
    rw [toI8_small (by omega)]
    exact wrap8_id (by omega) (by omega)
  rw [ex, ey] at h
  omega

theorem try_move_preserves (g : Tetris) (delta : Int × Int)
    (hd1 : -1 ≤ delta.1) (hd2 : delta.1 ≤ 1) (hd3 : 0 ≤ delta.2) (hd4 : delta.2 ≤ 1)
    (hInv : StateInv g) : StateInv (g.try_move delta).1 := by
  obtain ⟨hshape, hrest⟩ := hInv
  by_cases hgo : g.game_over = true
  · have hid : g.try_move delta = (g, false) := by simp [Tetris.try_move, hgo]
    rw [hid]
    exact ⟨hshape, hrest⟩
  · have hgo' : g.game_over = false := by simpa using hgo
    obtain ⟨hp1, hp2, hp3, hp4, hcp⟩ := hrest hgo'
    have hsx : (shiftedPos g delta).1 = g.piece_pos.1 + delta.1 := by
      unfold shiftedPos
      exact wrap8_id (by omega) (by omega)
    have hsy : (shiftedPos g delta).2 = g.piece_pos.2 + delta.2 := by
      unfold shiftedPos
      exact wrap8_id (by omega) (by omega)
    have hne : g.current_piece.shape ≠ [] :=
      List.ne_nil_of_length_pos (by rw [hshape.1]; decide)
    rw [(try_move_spec g delta hgo').2]
    split
    · rename_i hcp'
      obtain ⟨hb1, hb2, hb3⟩ :=
        pos_bounds_of_can_place g.board g.current_piece.shape (shiftedPos g delta)
          hshape.2 hne (by omega) (by omega) (by omega) (by omega) hcp'
      refine ⟨hshape, fun _ => ⟨hb1, hb2, ?_, hb3, hcp'⟩⟩
      show 0 ≤ (shiftedPos g delta).2
      omega
    · exact ⟨hshape, hrest⟩

theorem rotate_preserves (g : Tetris) (hInv : StateInv g) : StateInv (g.rotate).1 := by
  obtain ⟨hshape, hrest⟩ := hInv
  by_cases hgo : g.game_over = true
  · have hid : g.rotate = (g, false) := by simp [Tetris.rotate, hgo]
    rw [hid]
    exact ⟨hshape, hrest⟩
  · have hgo' : g.game_over = false := by simpa using hgo
    simp only [Tetris.rotate, hgo', Bool.false_eq_true, if_false]
    split
    · rename_i hcp'
      obtain ⟨hp1, hp2, hp3, hp4, _⟩ := hrest hgo'
      refine ⟨⟨?_, rotateShape_bounds hshape.2⟩, fun _ => ⟨hp1, hp2, hp3, hp4, hcp'⟩⟩
      show (rotateShape g.current_piece.shape).length = 4
      simp [rotateShape, hshape.1]
    · exact ⟨hshape, hrest⟩

theorem spawn_establishes (g : Tetris) (hgo : g.game_over = false) :
    StateInv (g.spawn_new_piece) := by
  simp only [Tetris.spawn_new_piece, hgo, Bool.false_eq_true, if_false]
  have hidx : ((g.ran.headD 0) % U32MOD) % 7 < 7 := Nat.mod_lt _ (by norm_num)
  have hshape := tetromino_shapeInv _ hidx
  split
  · rename_i hcp
    exact ⟨hshape, fun _ =>
      ⟨(by decide : (-3 : Int) ≤ 3), (by decide : (3 : Int) ≤ 7),
       (by decide : (0 : Int) ≤ 0), (by decide : (0 : Int) ≤ 31), hcp⟩⟩
  · exact ⟨hshape, fun hfalse => by simp at hfalse⟩

theorem move_down_preserves (g : Tetris) (hInv : StateInv g) :
    StateInv (g.move_down).1 := by
  by_cases hgo : g.game_over = true
  · have hid : g.move_down = (g, false) := by simp [Tetris.move_down, hgo]
    rw [hid]
    exact hInv
  · have hgo' : g.game_over = false := by simpa using hgo
    simp only [Tetris.move_down, hgo', Bool.false_eq_true, if_false]
    cases hm : (g.try_move (0, 1)).2
    · simp only [Bool.false_eq_true, if_false]
      exact spawn_establishes _ (by rw [(lock_piece_fields _).2.2.1, try_move_go, hgo'])
    · simp only [if_true]
      exact try_move_preserves g (0, 1) (by decide) (by decide) (by decide) (by decide) hInv

theorem new_establishes (rng : List Nat) : StateInv (Tetris.new rng) := by
  simp only [Tetris.new]
  split
  · rename_i hcp
    exact ⟨tetromino_shapeInv 0 (by norm_num),
      fun _ => ⟨(by decide : (-3 : Int) ≤ 2), (by decide : (2 : Int) ≤ 7),
        (by decide : (0 : Int) ≤ 0), (by decide : (0 : Int) ≤ 31), hcp⟩⟩
  · exact ⟨tetromino_shapeInv 0 (by norm_num), fun hfalse => by simp at hfalse⟩

theorem lock_cells_in_bounds (g : Tetris) (hInv : StateInv g) (hgo : g.game_over = false) :
    ∀ d ∈ g.current_piece.shape,
      0 ≤ cellX g.piece_pos d ∧ cellX g.piece_pos d < 8 ∧
      0 ≤ cellY g.piece_pos d ∧ cellY g.piece_pos d < 32 ∧
      usizeOf (cellX g.piece_pos d) < 8 ∧ usizeOf (cellY g.piece_pos d) < 32 := by
  obtain ⟨hshape, hrest⟩ := hInv
  obtain ⟨hp1, hp2, hp3, hp4, hcp⟩ := hrest hgo
  intro d hd
  have h := (can_place_on_iff g.board g.current_piece.shape g.piece_pos).mp hcp d hd
  obtain ⟨hdx, hdy⟩ := hshape.2 d hd
  have ex : cellX g.piece_pos d = g.piece_pos.1 + (d.1 : Int) := by
    unfold cellX
    rw [toI8_small (by omega)]
    exact wrap8_id (by omega) (by omega)
  have ey : cellY g.piece_pos d = g.piece_pos.2 + (d.2 : Int) := by
    unfold cellY
    rw [toI8_small (by omega)]
    exact wrap8_id (by omega) (by omega)
  rw [ex, ey] at h ⊢
  obtain ⟨k1, k2, k3, _⟩ := h
  refine ⟨k1, k2, by omega, k3, ?_, ?_⟩ <;> (unfold usizeOf; omega)

/-- C10: the invariant StateInv — the active shape is 4 offsets inside the
4 x 4 box and, while the game is live, the piece position lies in a small
window with non-negative y and can_place holds at the current position —
is established by Tetris::new and preserved by move_left, move_right,
move_down and rotate; consequently, whenever a live piece is locked, all
4 absolute cells lie inside [0, W) x [0, H) and the usize indices of the
unchecked board writes of lock_piece are in bounds. -/
theorem piece_invariant (rng : List Nat) (g : Tetris) :
    StateInv (Tetris.new rng) ∧
    (StateInv g →
      StateInv (g.move_left).1 ∧ StateInv (g.move_right).1 ∧
      StateInv (g.move_down).1 ∧ StateInv (g.rotate).1) ∧
    (StateInv g → g.game_over = false →
      ∀ d ∈ g.current_piece.shape,
        0 ≤ cellX g.piece_pos d ∧ cellX g.piece_pos d < 8 ∧
        0 ≤ cellY g.piece_pos d ∧ cellY g.piece_pos d < 32 ∧
        usizeOf (cellX g.piece_pos d) < 8 ∧ usizeOf (cellY g.piece_pos d) < 32) :=
  ⟨new_establishes rng,
   fun h =>
     ⟨try_move_preserves g (-1, 0) (by decide) (by decide) (by decide) (by decide) h,
      try_move_preserves g (1, 0) (by decide) (by decide) (by decide) (by decide) h,
      move_down_preserves g h, rotate_preserves g h⟩,
   fun h hgo => lock_cells_in_bounds g h hgo⟩

theorem piece_invariant_witness : StateInv ((Tetris.new []).move_down).1 :=
  ((piece_invariant [] (Tetris.new [])).2.1 (piece_invariant [] (Tetris.new [])).1).2.2.1
